import Mathlib

/-!
# Verification of the Heterogeneous Content Normalization Engine

Shallow embedding of the normalization core of `scrape_harris_tax.py`:

* `structure_table_entry` / `normalize_table_entries` (the TableNormalizer),
* the key/value line splitting performed by `extract_key_value_section`
  (the LineSplitter, lines 212-254 of the source: a JS `forEach` over the
  trimmed non-blank lines of a container, plus the Python post-processing
  that drops empty sub-objects),
* the per-container assembly performed by `extract_jurisdiction_containers`
  (the ContainerAssembler, lines 256-326).

Python dicts and JS objects are modelled as insertion-ordered association
lists (`List (String × ...)`): a new key is appended at the end, an update
of an existing key replaces its value in place.  Python's `str.strip()` /
JS `String.prototype.trim` are modelled by `strTrim` (drop leading and
trailing whitespace characters); `str.rstrip(":")` by `rstripColons`
(drop all trailing colons).  Strings are treated as their lists of
characters (`String.data`), which is faithful for all the text the
engine manipulates.
-/

namespace HarrisScrape

/-- Whitespace trimming on a character list: drop leading and trailing
whitespace.  Models Python `str.strip()` and JS `trim()`. -/
def listTrim (l : List Char) : List Char :=
  ((l.dropWhile Char.isWhitespace).reverse.dropWhile Char.isWhitespace).reverse

/-- `strTrim s` models `s.strip()` (Python) / `s.trim()` (JS). -/
def strTrim (s : String) : String :=
  String.mk (listTrim s.data)

/-- `rstripColons s` models Python `s.rstrip(":")`: remove every trailing
`':'` character. -/
def rstripColons (s : String) : String :=
  String.mk ((s.data.reverse.dropWhile (fun c => c = ':')).reverse)

/-- A value stored under a key: a scalar string, or the ordered list a
repeated key accumulates into. -/
inductive FieldVal where
  | str : String → FieldVal
  | list : List String → FieldVal
deriving Repr, DecidableEq

/-- Ordered key/value mapping: Python dict / JS object as an ordered
association list. -/
abbrev KVMap := List (String × FieldVal)

/-- Lookup of a key (`key in fields` / `fields[key]`). -/
def lookupAssoc : KVMap → String → Option FieldVal
  | [], _ => none
  | (k', v) :: rest, k => if k' = k then some v else lookupAssoc rest k

/-- `fields[key] = v`: replace in place when the key exists, else append
at the end (insertion order of a Python dict / JS object). -/
def updateAssoc : KVMap → String → FieldVal → KVMap
  | [], k, v => [(k, v)]
  | (k', v') :: rest, k, v =>
      if k' = k then (k, v) :: rest else (k', v') :: updateAssoc rest k v

/-- The duplicate-key merge used (inline) by all three components
(source lines 141-147, 228-237, 287-295):

    if key in fields:
        if isinstance(fields[key], list):
            fields[key].append(value)
        else:
            fields[key] = [fields[key], value]
    else:
        fields[key] = value
-/
def mergeKV (m : KVMap) (k : String) (v : String) : KVMap :=
  match lookupAssoc m k with
  | none => updateAssoc m k (FieldVal.str v)
  | some (FieldVal.str s) => updateAssoc m k (FieldVal.list [s, v])
  | some (FieldVal.list l) => updateAssoc m k (FieldVal.list (l ++ [v]))

/-- Accumulate a whole sequence of (key, value) insertions through
`mergeKV`, starting from the empty mapping. -/
def accumKV (pairs : List (String × String)) : KVMap :=
  pairs.foldl (fun m p => mergeKV m p.1 p.2) []

/-- The values inserted under key `k`, in insertion order. -/
def collectVals (pairs : List (String × String)) (k : String) : List String :=
  (pairs.filter (fun p => p.1 = k)).map (fun p => p.2)

/-- The value the duplicate-key rule should produce from the ordered list
of values inserted under one key: nothing for no insertion, the scalar for
one, the ordered list of all values for two or more. -/
def expectedVal : List String → Option FieldVal
  | [] => none
  | [v] => some (FieldVal.str v)
  | v₁ :: v₂ :: vs => some (FieldVal.list (v₁ :: v₂ :: vs))

/-! ## TableNormalizer (`structure_table_entry`, source lines 113-160) -/

/-- One raw extracted table row: cell texts plus the header flag. -/
structure RawRow where
  cells : List String
  header : Bool
deriving Repr, DecidableEq

/-- One raw table entry: optional title plus ordered rows. -/
structure RawTableEntry where
  title : Option String
  rows : List RawRow
deriving Repr, DecidableEq

/-- `[cell.strip() for cell in row.get("cells", []) if cell and cell.strip()]`:
trim every cell and drop the ones that trim to empty. -/
def cleanCells (cells : List String) : List String :=
  (cells.filter (fun c => strTrim c ≠ "")).map strTrim

/-- The loop state of `structure_table_entry`: current headers, fields,
records and residual rows. -/
structure TableState where
  headers : Option (List String)
  fields : KVMap
  records : List (List (String × String))
  residual : List (List String)
deriving Repr, DecidableEq

/-- `headers and len(cells) == len(headers)` (Python truthiness of the
headers list included). -/
def rowIsRecord (headers : Option (List String)) (cells : List String) : Bool :=
  match headers with
  | none => false
  | some hs => decide (hs ≠ []) && decide (cells.length = hs.length)

/-- Insertion into a string-valued dict: replace in place when the key
exists, else append at the end. -/
def updateStr : List (String × String) → String → String → List (String × String)
  | [], k, v => [(k, v)]
  | (k', v') :: rest, k, v =>
      if k' = k then (k, v) :: rest else (k', v') :: updateStr rest k v

/-- `dict(zip(headers, cells))`: build a Python dict from the positional
pairs (a repeated header name keeps its first position, last value wins). -/
def dictOfPairs (ps : List (String × String)) : List (String × String) :=
  ps.foldl (fun m p => updateStr m p.1 p.2) []

/-- One iteration of the row loop of `structure_table_entry`
(source lines 128-149). -/
def tableStep (s : TableState) (row : RawRow) : TableState :=
  let cells := cleanCells row.cells
  if cells = [] then s
  else if row.header then { s with headers := some cells }
  else if rowIsRecord s.headers cells then
    { s with records := s.records ++ [dictOfPairs ((s.headers.getD []).zip cells)] }
  else
    match cells with
    | [c₀, c₁] => { s with fields := mergeKV s.fields (rstripColons c₀) c₁ }
    | _ => { s with residual := s.residual ++ [cells] }

/-- The normalized table: each member present only when non-empty
(`None` models an omitted key of the Python dict). -/
structure NormalizedTable where
  title : Option String
  headers : Option (List String)
  fields : Option KVMap
  records : Option (List (List (String × String)))
  rows : Option (List (List String))
deriving Repr, DecidableEq

/-- Python truthiness of an optional list (`if headers:`). -/
def optListTruthy (h : Option (List String)) : Bool :=
  match h with
  | none => false
  | some l => !l.isEmpty

/-- `structure_table_entry` (source lines 113-160). -/
def structure_table_entry (entry : RawTableEntry) : NormalizedTable :=
  let title := strTrim (entry.title.getD "")
  let s := entry.rows.foldl tableStep ⟨none, [], [], []⟩
  { title := if title = "" then none else some title
    headers := if optListTruthy s.headers then s.headers else none
    fields := if s.fields = [] then none else some s.fields
    records := if s.records = [] then none else some s.records
    rows := if s.residual = [] then none else some s.residual }

/-- `if structured:` — Python truthiness of the result dict. -/
def NormalizedTable.isEmpty (t : NormalizedTable) : Bool :=
  t.title.isNone && t.headers.isNone && t.fields.isNone &&
    t.records.isNone && t.rows.isNone

/-- `normalize_table_entries` (source lines 162-168): the accumulation
loop, appending each non-empty structured entry. -/
def normalize_table_entries (raw : List RawTableEntry) : List NormalizedTable :=
  raw.foldl
    (fun acc e =>
      let structured := structure_table_entry e
      if structured.isEmpty then acc else acc ++ [structured])
    []

/-! ## LineSplitter (`extract_key_value_section`, source lines 212-254) -/

/-- `line.indexOf(':')`: position of the first colon, if any. -/
def firstColonIdx (s : String) : Option Nat :=
  s.data.findIdx? (fun c => c = ':')

/-- `line.length` as a character count. -/
def strLen (s : String) : Nat := s.data.length

/-- `line.slice(0, idx)`. -/
def strTake (s : String) (n : Nat) : String := String.mk (s.data.take n)

/-- `line.slice(idx + 1)`. -/
def strDrop (s : String) (n : Nat) : String := String.mk (s.data.drop n)

/-- The key/value classification of one line (source lines 224-227,
283-286): the first colon must exist, not be at index 0 and not be the
final character; the key is the text before it trimmed, the value the
text after it trimmed. -/
def parseKVLine (line : String) : Option (String × String) :=
  match firstColonIdx line with
  | none => none
  | some idx =>
      if 0 < idx ∧ idx + 1 < strLen line then
        some (strTrim (strTake line idx), strTrim (strDrop line (idx + 1)))
      else none

/-- The pre-pop result of the splitting loop: `keyValues`, residual
`rows`, and the audit copy `lines`. -/
structure LineBlock where
  keyValues : KVMap
  rows : List String
  lines : List String
deriving Repr, DecidableEq

/-- One iteration of the `rawLines.forEach` of
`extract_key_value_section` (source lines 223-241), acting on the
`(keyValues, rows)` accumulator. -/
def splitStep (acc : KVMap × List String) (line : String) : KVMap × List String :=
  match parseKVLine line with
  | some kv => (mergeKV acc.1 kv.1 kv.2, acc.2)
  | none => (acc.1, acc.2 ++ [line])

/-- The splitting loop over already-trimmed non-blank lines, with the
full input kept as the audit copy (source lines 220-242). -/
def splitLinesRaw (ls : List String) : LineBlock :=
  let acc := ls.foldl splitStep ([], [])
  { keyValues := acc.1, rows := acc.2, lines := ls }

/-- The returned section after the Python post-processing that pops
empty members (source lines 246-254). -/
structure LineBlockOut where
  keyValues : Option KVMap
  rows : Option (List String)
  lines : Option (List String)
deriving Repr, DecidableEq

/-- `extract_key_value_section` on the trimmed non-blank lines of the
container: split, then drop each empty member. -/
def extract_key_value_section (ls : List String) : LineBlockOut :=
  let b := splitLinesRaw ls
  { keyValues := if b.keyValues = [] then none else some b.keyValues
    rows := if b.rows = [] then none else some b.rows
    lines := if b.lines = [] then none else some b.lines }

/-! ## ContainerAssembler (`extract_jurisdiction_containers`,
source lines 256-326) -/

/-- One raw table of a container: `th` texts and per-`tr` cell texts,
as extracted from the DOM before trimming. -/
structure RawTable where
  headers : List String
  rows : List (List String)
deriving Repr, DecidableEq

/-- One assembled container block; every member present only when
non-empty except `label`, which the source sets whenever a heading
element exists. -/
structure ContainerBlock where
  label : Option String
  fields : Option KVMap
  lines : Option (List String)
  tables : Option (List RawTable)
deriving Repr, DecidableEq

/-- `heading && line === heading.innerText.trim()` (source line 280):
does this line equal the trimmed heading text? -/
def headingMatches (heading : Option String) (line : String) : Bool :=
  match heading with
  | none => false
  | some t => line = strTrim t

/-- One iteration of the container's `rawLines.forEach`
(source lines 279-299): skip the heading line, else classify by the
first colon, merging key/values or appending to `lines`. -/
def containerLineStep (heading : Option String) (acc : KVMap × List String)
    (line : String) : KVMap × List String :=
  if headingMatches heading line then acc
  else
    match parseKVLine line with
    | some kv => (mergeKV acc.1 kv.1 kv.2, acc.2)
    | none => (acc.1, acc.2 ++ [line])

/-- The line pass of one container: trim each raw line, drop blanks
(source lines 273-275), then run the classification loop. -/
def assembleContainerLines (heading : Option String) (rawLines : List String) :
    KVMap × List String :=
  ((rawLines.map strTrim).filter (fun l => l ≠ "")).foldl
    (containerLineStep heading) ([], [])

/-- The table pass of one container (source lines 308-315): trim the
header texts; per row trim each cell, drop empty cells, drop rows
with no cell left. -/
def cleanTable (t : RawTable) : RawTable :=
  { headers := t.headers.map strTrim
    rows := (t.rows.map (fun r => (r.map strTrim).filter (fun c => c ≠ ""))).filter
      (fun r => r ≠ []) }

/-- Assembly of one container block (the body of the `containers.map`
of `extract_jurisdiction_containers`, source lines 266-321): `heading`
is the heading element's text when one exists, `rawLines` the split
lines of the container's text, `rawTables` the raw extracted tables. -/
def assemble_container (heading : Option String) (rawLines : List String)
    (rawTables : List RawTable) : ContainerBlock :=
  let acc := assembleContainerLines heading rawLines
  let tables := (rawTables.map cleanTable).filter (fun t => t.rows ≠ [])
  { label := heading.map strTrim
    fields := if acc.1 = [] then none else some acc.1
    lines := if acc.2 = [] then none else some acc.2
    tables := if tables = [] then none else some tables }

/-! ## Fallible-operation variant of the TableNormalizer

`structure_table_entry_checked` returns `none` exactly where the Python
code performs an operation that could raise (`cells[0]` / `cells[1]`
indexing inside the 2-cell branch); proving it always returns `some`
establishes that the normalizer never raises. -/

/-- `tableStep` with the guarded `cells[0]` / `cells[1]` accesses made
explicit as fallible lookups. -/
def tableStepChecked (s : TableState) (row : RawRow) : Option TableState :=
  let cells := cleanCells row.cells
  if cells = [] then some s
  else if row.header then some { s with headers := some cells }
  else if rowIsRecord s.headers cells then
    some { s with records := s.records ++ [dictOfPairs ((s.headers.getD []).zip cells)] }
  else if cells.length = 2 then
    match cells.get? 0, cells.get? 1 with
    | some c₀, some c₁ =>
        some { s with fields := mergeKV s.fields (rstripColons c₀) c₁ }
    | _, _ => none
  else some { s with residual := s.residual ++ [cells] }

/-- `structure_table_entry`, with every fallible step made explicit. -/
def structure_table_entry_checked (entry : RawTableEntry) :
    Option NormalizedTable := do
  let title := strTrim (entry.title.getD "")
  let s ← entry.rows.foldlM tableStepChecked ⟨none, [], [], []⟩
  pure
    { title := if title = "" then none else some title
      headers := if optListTruthy s.headers then s.headers else none
      fields := if s.fields = [] then none else some s.fields
      records := if s.records = [] then none else some s.records
      rows := if s.residual = [] then none else some s.residual }

/-! ## Specification-side definitions used to state the claims -/

/-- One merge step on the value already stored under a key: nothing
becomes the scalar, a scalar becomes the two-element list, a list gets
the new value appended. -/
def bumpVal : Option FieldVal → String → FieldVal
  | none, v => FieldVal.str v
  | some (FieldVal.str s), v => FieldVal.list [s, v]
  | some (FieldVal.list l), v => FieldVal.list (l ++ [v])

/-- Iterate `bumpVal` over a list of values. -/
def extendVal : Option FieldVal → List String → Option FieldVal
  | o, [] => o
  | o, v :: vs => extendVal (some (bumpVal o v)) vs

/-- The headers tracking of the row loop, in isolation: blank rows keep
the headers, a header row replaces them, data rows keep them. -/
def headerScanStep (h : Option (List String)) (row : RawRow) : Option (List String) :=
  let cells := cleanCells row.cells
  if cells = [] then h else if row.header then some cells else h

/-- The cleaned cell list of the last header row of the sequence that
has a non-empty cleaned cell list, if any. -/
def lastHeaderCells (rows : List RawRow) : Option (List String) :=
  rows.foldl headerScanStep none

/-- The (key, value) pairs the row loop feeds into its `fields`
mapping, given the current headers: the 2-cell rows that are neither
blank, nor header rows, nor record rows. -/
def tableKVPairsGo (h : Option (List String)) : List RawRow → List (String × String)
  | [] => []
  | row :: rows =>
      let cells := cleanCells row.cells
      if cells = [] then tableKVPairsGo h rows
      else if row.header then tableKVPairsGo (some cells) rows
      else if rowIsRecord h cells then tableKVPairsGo h rows
      else
        match cells with
        | [c₀, c₁] => (rstripColons c₀, c₁) :: tableKVPairsGo h rows
        | _ => tableKVPairsGo h rows

/-- The (key, value) pairs of a whole entry's rows. -/
def tableKVPairs (rows : List RawRow) : List (String × String) :=
  tableKVPairsGo none rows

/-- The (key, value) pairs the container loop feeds into its `fields`:
the trimmed non-blank non-heading lines that classify as key/value. -/
def containerKVPairs (heading : Option String) (rawLines : List String) :
    List (String × String) :=
  ((((rawLines.map strTrim).filter (fun l => l ≠ "")).filter
      (fun l => !headingMatches heading l)).filterMap parseKVLine)

/-- Does the string end in a `':'` character? -/
def endsInColon (s : String) : Bool :=
  match s.data.reverse with
  | [] => false
  | c :: _ => c = ':'

/-! ## Lemmas on the ordered association map -/

theorem lookup_updateAssoc_self (m : KVMap) (k : String) (v : FieldVal) :
    lookupAssoc (updateAssoc m k v) k = some v := by
  induction m with
  | nil => simp [updateAssoc, lookupAssoc]
  | cons p rest ih =>
      obtain ⟨k', v'⟩ := p
      by_cases h : k' = k
      · simp [updateAssoc, lookupAssoc, h]
      · simp [updateAssoc, lookupAssoc, h, ih]

theorem lookup_updateAssoc_ne (m : KVMap) (k k' : String) (v : FieldVal)
    (h : k ≠ k') : lookupAssoc (updateAssoc m k v) k' = lookupAssoc m k' := by
  induction m with
  | nil => simp [updateAssoc, lookupAssoc, h]
  | cons p rest ih =>
      obtain ⟨k₀, v₀⟩ := p
      by_cases h₀ : k₀ = k
      · subst h₀
        simp [updateAssoc, lookupAssoc, h]
      · simp only [updateAssoc, if_neg h₀, lookupAssoc]
        by_cases h₁ : k₀ = k'
        · simp [h₁]
        · simp [h₁, ih]

theorem mergeKV_eq_updateAssoc (m : KVMap) (k : String) (v : String) :
    mergeKV m k v = updateAssoc m k (bumpVal (lookupAssoc m k) v) := by
  unfold mergeKV bumpVal
  cases h : lookupAssoc m k with
  | none => simp
  | some fv => cases fv <;> simp

theorem lookup_mergeKV_self (m : KVMap) (k : String) (v : String) :
    lookupAssoc (mergeKV m k v) k = some (bumpVal (lookupAssoc m k) v) := by
  rw [mergeKV_eq_updateAssoc, lookup_updateAssoc_self]

theorem lookup_mergeKV_ne (m : KVMap) (k k' : String) (v : String)
    (h : k ≠ k') : lookupAssoc (mergeKV m k v) k' = lookupAssoc m k' := by
  rw [mergeKV_eq_updateAssoc, lookup_updateAssoc_ne _ _ _ _ h]

theorem extendVal_list (ws : List String) :
    ∀ l, extendVal (some (FieldVal.list l)) ws = some (FieldVal.list (l ++ ws)) := by
  induction ws with
  | nil => intro l; simp [extendVal]
  | cons w ws ih =>
      intro l
      simp only [extendVal, bumpVal]
      rw [ih]
      simp

theorem extendVal_str (v : String) (vs : List String) :
    extendVal (some (FieldVal.str v)) vs = expectedVal (v :: vs) := by
  cases vs with
  | nil => simp [extendVal, expectedVal]
  | cons w ws =>
      simp only [extendVal, bumpVal, expectedVal]
      rw [extendVal_list]
      simp

theorem extendVal_none (vs : List String) :
    extendVal none vs = expectedVal vs := by
  cases vs with
  | nil => simp [extendVal, expectedVal]
  | cons v vs => simp only [extendVal, bumpVal]; exact extendVal_str v vs

theorem lookup_foldl_mergeKV (pairs : List (String × String)) :
    ∀ (m : KVMap) (k : String),
      lookupAssoc (pairs.foldl (fun acc p => mergeKV acc p.1 p.2) m) k
        = extendVal (lookupAssoc m k) (collectVals pairs k) := by
  induction pairs with
  | nil => intro m k; simp [collectVals, extendVal]
  | cons p ps ih =>
      intro m k
      simp only [List.foldl_cons]
      rw [ih]
      by_cases h : p.1 = k
      · subst h
        rw [lookup_mergeKV_self]
        simp [collectVals, extendVal]
      · rw [lookup_mergeKV_ne _ _ _ _ h]
        simp [collectVals, h]

/-! ## Tie lemmas: each component's key/value accumulation is the fold
of `mergeKV` over its sequence of (key, value) insertions -/

theorem foldl_splitStep_fst (ls : List String) :
    ∀ (kv : KVMap) (rows : List String),
      (ls.foldl splitStep (kv, rows)).1
        = (ls.filterMap parseKVLine).foldl (fun m p => mergeKV m p.1 p.2) kv := by
  induction ls with
  | nil => intro kv rows; simp
  | cons l ls ih =>
      intro kv rows
      cases h : parseKVLine l with
      | none => simp [splitStep, h, ih]
      | some p => simp [splitStep, h, ih]

theorem foldl_splitStep_snd (ls : List String) :
    ∀ (kv : KVMap) (rows : List String),
      (ls.foldl splitStep (kv, rows)).2
        = rows ++ ls.filter (fun l => (parseKVLine l).isNone) := by
  induction ls with
  | nil => intro kv rows; simp
  | cons l ls ih =>
      intro kv rows
      cases h : parseKVLine l with
      | none => simp [splitStep, h, ih]
      | some p => simp [splitStep, h, ih]

theorem splitLinesRaw_keyValues (ls : List String) :
    (splitLinesRaw ls).keyValues = accumKV (ls.filterMap parseKVLine) := by
  simp [splitLinesRaw, accumKV, foldl_splitStep_fst]

theorem foldl_containerLineStep_fst (heading : Option String) (ls : List String) :
    ∀ (acc : KVMap × List String),
      (ls.foldl (containerLineStep heading) acc).1
        = ((ls.filter (fun l => !headingMatches heading l)).filterMap
            parseKVLine).foldl (fun m p => mergeKV m p.1 p.2) acc.1 := by
  induction ls with
  | nil => intro acc; simp
  | cons l ls ih =>
      intro acc
      by_cases hm : headingMatches heading l
      · simp [containerLineStep, hm, ih]
      · cases h : parseKVLine l with
        | none => simp [containerLineStep, hm, h, ih]
        | some p => simp [containerLineStep, hm, h, ih]

theorem assembleContainerLines_fst (heading : Option String) (rawLines : List String) :
    (assembleContainerLines heading rawLines).1
      = accumKV (containerKVPairs heading rawLines) := by
  simp [assembleContainerLines, containerKVPairs, accumKV,
    foldl_containerLineStep_fst]

theorem foldl_tableStep_fields (rows : List RawRow) :
    ∀ (s : TableState),
      (rows.foldl tableStep s).fields
        = (tableKVPairsGo s.headers rows).foldl
            (fun m p => mergeKV m p.1 p.2) s.fields := by
  induction rows with
  | nil => intro s; simp [tableKVPairsGo]
  | cons row rows ih =>
      intro s
      simp only [List.foldl_cons, tableKVPairsGo]
      by_cases hc : cleanCells row.cells = []
      · have hstep : tableStep s row = s := by simp [tableStep, hc]
        rw [hstep, ih, hc]
        simp
      · by_cases hh : row.header
        · have hstep : tableStep s row = { s with headers := some (cleanCells row.cells) } := by
            simp [tableStep, hc, hh]
          rw [hstep, ih]
          simp [hc, hh]
        · by_cases hr : rowIsRecord s.headers (cleanCells row.cells)
          · have hstep : tableStep s row
                = { s with records := s.records
                    ++ [dictOfPairs ((s.headers.getD []).zip (cleanCells row.cells))] } := by
              simp [tableStep, hc, hh, hr]
            rw [hstep, ih]
            simp [hc, hh, hr]
          · rcases h2 : cleanCells row.cells with _ | ⟨c₀, _ | ⟨c₁, _ | ⟨c₂, cs⟩⟩⟩
            · exact absurd h2 hc
            · rw [h2] at hr
              have hstep : tableStep s row
                  = { s with residual := s.residual ++ [cleanCells row.cells] } := by
                simp [tableStep, hc, hh, hr, h2]
              rw [hstep, ih]
              simp [hc, hh, hr, h2]
            · rw [h2] at hr
              have hstep : tableStep s row
                  = { s with fields := mergeKV s.fields (rstripColons c₀) c₁ } := by
                simp [tableStep, hc, hh, hr, h2]
              rw [hstep, ih]
              simp [hc, hh, hr, h2]
            · rw [h2] at hr
              have hstep : tableStep s row
                  = { s with residual := s.residual ++ [cleanCells row.cells] } := by
                simp [tableStep, hc, hh, hr, h2]
              rw [hstep, ih]
              simp [hc, hh, hr, h2]

/-- C1: Duplicate-key merge invariant.  First conjunct: for every
sequence of (key, value) insertions folded through `mergeKV` and every
key, the stored value is exactly `expectedVal` of the ordered list of
that key's inserted values — absent for no insertion, the scalar for
one, the ordered list of all values (in first-seen order) for two or
more; hence no insertion ever overwrites a previously stored value.
Remaining conjuncts: the key/value accumulations of the three
components — LineSplitter (`splitLinesRaw`), ContainerAssembler
(`assembleContainerLines`) and TableNormalizer's 2-cell path
(`tableStep`) — each equal that fold of `mergeKV` over their respective
(key, value) insertion sequences. -/
theorem C1_duplicate_key_merge_invariant :
    (∀ (pairs : List (String × String)) (k : String),
        lookupAssoc (accumKV pairs) k = expectedVal (collectVals pairs k)) ∧
    (∀ ls : List String,
        (splitLinesRaw ls).keyValues = accumKV (ls.filterMap parseKVLine)) ∧
    (∀ (heading : Option String) (rawLines : List String),
        (assembleContainerLines heading rawLines).1
          = accumKV (containerKVPairs heading rawLines)) ∧
    (∀ rows : List RawRow,
        (rows.foldl tableStep ⟨none, [], [], []⟩).fields
          = accumKV (tableKVPairs rows)) := by
  refine ⟨?_, ?_, ?_, ?_⟩
  · intro pairs k
    rw [accumKV, lookup_foldl_mergeKV]
    simp [lookupAssoc, extendVal_none]
  · exact splitLinesRaw_keyValues
  · exact assembleContainerLines_fst
  · intro rows
    rw [foldl_tableStep_fields, tableKVPairs, accumKV]

/-! ## Case lemmas for one iteration of the row loop -/

theorem tableStep_skip (s : TableState) (row : RawRow)
    (hc : cleanCells row.cells = []) : tableStep s row = s := by
  simp [tableStep, hc]

theorem tableStep_header (s : TableState) (row : RawRow)
    (hh : row.header = true) (hc : cleanCells row.cells ≠ []) :
    tableStep s row = { s with headers := some (cleanCells row.cells) } := by
  simp [tableStep, hc, hh]

theorem rowIsRecord_ne_nil {h : Option (List String)} {cells : List String}
    (hr : rowIsRecord h cells = true) : cells ≠ [] := by
  cases h with
  | none => simp [rowIsRecord] at hr
  | some hs =>
      simp only [rowIsRecord, Bool.and_eq_true, decide_eq_true_eq] at hr
      intro hnil
      subst hnil
      exact hr.1 (List.length_eq_zero.mp hr.2.symm)

theorem tableStep_record (s : TableState) (row : RawRow)
    (hh : row.header = false)
    (hr : rowIsRecord s.headers (cleanCells row.cells) = true) :
    tableStep s row = { s with records := s.records
      ++ [dictOfPairs ((s.headers.getD []).zip (cleanCells row.cells))] } := by
  have hc : cleanCells row.cells ≠ [] := rowIsRecord_ne_nil hr
  simp [tableStep, hc, hh, hr]

theorem tableStep_field (s : TableState) (row : RawRow) (c₀ c₁ : String)
    (hh : row.header = false)
    (hr : rowIsRecord s.headers (cleanCells row.cells) = false)
    (h2 : cleanCells row.cells = [c₀, c₁]) :
    tableStep s row = { s with fields := mergeKV s.fields (rstripColons c₀) c₁ } := by
  have hc : cleanCells row.cells ≠ [] := by simp [h2]
  rw [h2] at hr
  simp [tableStep, hc, hh, hr, h2]

/-! ## Lemmas on `dict(zip(...))` -/

theorem updateStr_not_mem (m : List (String × String)) (k : String) (v : String)
    (h : ∀ q ∈ m, q.1 ≠ k) : updateStr m k v = m ++ [(k, v)] := by
  induction m with
  | nil => simp [updateStr]
  | cons q rest ih =>
      obtain ⟨k', v'⟩ := q
      have hk : k' ≠ k := h (k', v') (List.mem_cons_self _ _)
      simp only [updateStr, if_neg hk, List.cons_append, List.cons.injEq, true_and]
      exact ih (fun q hq => h q (List.mem_cons_of_mem _ hq))

theorem foldl_updateStr_of_nodup (ps : List (String × String)) :
    ∀ (m : List (String × String)),
      (∀ p ∈ ps, ∀ q ∈ m, p.1 ≠ q.1) → (ps.map Prod.fst).Nodup →
      ps.foldl (fun m p => updateStr m p.1 p.2) m = m ++ ps := by
  induction ps with
  | nil => intro m _ _; simp
  | cons p ps ih =>
      intro m hdis hnd
      simp only [List.map_cons, List.nodup_cons] at hnd
      have hstep : updateStr m p.1 p.2 = m ++ [(p.1, p.2)] := by
        apply updateStr_not_mem
        intro q hq
        exact (hdis p (List.mem_cons_self _ _) q hq).symm
      simp only [List.foldl_cons, hstep]
      rw [ih (m ++ [(p.1, p.2)])]
      · simp
      · intro p' hp' q hq
        rcases List.mem_append.mp hq with hq | hq
        · exact hdis p' (List.mem_cons_of_mem _ hp') q hq
        · simp only [List.mem_singleton] at hq
          subst hq
          intro he
          exact hnd.1 (he ▸ List.mem_map_of_mem Prod.fst hp')
      · exact hnd.2

theorem dictOfPairs_of_nodup (ps : List (String × String))
    (h : (ps.map Prod.fst).Nodup) : dictOfPairs ps = ps := by
  rw [dictOfPairs, foldl_updateStr_of_nodup ps [] (by simp) h]
  simp

/-- C2: a non-header row whose cleaned cell count equals the current
header count is always consumed by the record path: the state gains
exactly one record, `dict(zip(headers, cells))`, and `fields` and the
residual `rows` are untouched — even when the row has exactly 2 cells.
Final conjunct: when the headers are pairwise distinct, that record's
keys are exactly the headers, in headers order. -/
theorem C2_full_width_row_is_record :
    (∀ (s : TableState) (row : RawRow),
        row.header = false →
        rowIsRecord s.headers (cleanCells row.cells) = true →
        tableStep s row = { s with records := s.records
          ++ [dictOfPairs ((s.headers.getD []).zip (cleanCells row.cells))] }) ∧
    (∀ (hs cells : List String), hs.Nodup → cells.length = hs.length →
        (dictOfPairs (hs.zip cells)).map Prod.fst = hs) := by
  refine ⟨tableStep_record, ?_⟩
  intro hs cells hnd hlen
  have hfst : (hs.zip cells).map Prod.fst = hs :=
    List.map_fst_zip hs cells (le_of_eq hlen.symm)
  have hnd' : ((hs.zip cells).map Prod.fst).Nodup := by rw [hfst]; exact hnd
  rw [dictOfPairs_of_nodup _ hnd', hfst]

/-- Witness for C2 at a concrete input: with headers `["Name", "Age"]`
the 2-cell non-header row `["Bob", "42"]` becomes the record
`{Name: Bob, Age: 42}` appended to `records`, leaving `fields` and the
residual rows untouched, and the record's keys are the headers in
headers order. -/
theorem C2_full_width_row_is_record_witness :
    tableStep ⟨some ["Name", "Age"], [], [], []⟩ ⟨["Bob", "42"], false⟩
      = ⟨some ["Name", "Age"], [],
          [[("Name", "Bob"), ("Age", "42")]], []⟩ ∧
    (dictOfPairs ((["Name", "Age"]).zip ["Bob", "42"])).map Prod.fst
      = ["Name", "Age"] := by
  constructor
  · have h := C2_full_width_row_is_record.1
      ⟨some ["Name", "Age"], [], [], []⟩ ⟨["Bob", "42"], false⟩ rfl (by decide)
    rw [h]
    decide
  · exact C2_full_width_row_is_record.2 ["Name", "Age"] ["Bob", "42"]
      (by decide) (by decide)

/-! ## Header tracking -/

theorem tableStep_headers_eq (s : TableState) (row : RawRow) :
    (tableStep s row).headers = headerScanStep s.headers row := by
  by_cases hc : cleanCells row.cells = []
  · rw [tableStep_skip s row hc]
    simp [headerScanStep, hc]
  · by_cases hh : row.header
    · rw [tableStep_header s row hh hc]
      simp [headerScanStep, hc, hh]
    · have hh' : row.header = false := by simpa using hh
      by_cases hr : rowIsRecord s.headers (cleanCells row.cells)
      · rw [tableStep_record s row hh' hr]
        simp [headerScanStep, hc, hh']
      · have hr' : rowIsRecord s.headers (cleanCells row.cells) = false := by
          simpa using hr
        rcases h2 : cleanCells row.cells with _ | ⟨c₀, _ | ⟨c₁, _ | ⟨c₂, cs⟩⟩⟩
        · exact absurd h2 hc
        · rw [h2] at hr'
          simp [tableStep, headerScanStep, hc, hh', hr', h2]
        · rw [h2] at hr'
          simp [tableStep, headerScanStep, hc, hh', hr', h2]
        · rw [h2] at hr'
          simp [tableStep, headerScanStep, hc, hh', hr', h2]

theorem foldl_tableStep_headers (rows : List RawRow) :
    ∀ (s : TableState),
      (rows.foldl tableStep s).headers = rows.foldl headerScanStep s.headers := by
  induction rows with
  | nil => intro s; simp
  | cons row rows ih =>
      intro s
      simp only [List.foldl_cons]
      rw [ih, tableStep_headers_eq]

theorem foldl_headerScanStep_or (rows : List RawRow) :
    ∀ (h : Option (List String)),
      rows.foldl headerScanStep h
        = Option.or (rows.foldl headerScanStep none) h := by
  induction rows with
  | nil => intro h; cases h <;> simp [Option.or]
  | cons row rows ih =>
      intro h
      simp only [List.foldl_cons]
      by_cases hc : cleanCells row.cells = []
      · simp only [headerScanStep, hc, if_pos rfl]
        exact ih h
      · by_cases hh : row.header
        · have hset : ∀ h₀ : Option (List String),
              headerScanStep h₀ row = some (cleanCells row.cells) := by
            intro h₀; simp [headerScanStep, hc, hh]
          rw [hset h, hset none, ih (some (cleanCells row.cells))]
          cases hrest : rows.foldl headerScanStep none <;> simp [Option.or]
        · have hkeep : ∀ h₀ : Option (List String),
              headerScanStep h₀ row = h₀ := by
            intro h₀; simp [headerScanStep, hc, hh]
          rw [hkeep h, hkeep none]
          exact ih h

theorem foldl_headerScanStep_ne_nil (rows : List RawRow) :
    ∀ (h : Option (List String)), (∀ cs, h = some cs → cs ≠ []) →
      ∀ cs, rows.foldl headerScanStep h = some cs → cs ≠ [] := by
  induction rows with
  | nil => intro h hh cs hcs; exact hh cs hcs
  | cons row rows ih =>
      intro h hh cs hcs
      simp only [List.foldl_cons] at hcs
      refine ih (headerScanStep h row) ?_ cs hcs
      intro cs' hcs'
      by_cases hc : cleanCells row.cells = []
      · simp only [headerScanStep, hc, if_pos rfl] at hcs'
        exact hh cs' hcs'
      · by_cases hhd : row.header
        · simp [headerScanStep, hc, hhd] at hcs'
          subst hcs'
          exact hc
        · simp [headerScanStep, hc, hhd] at hcs'
          exact hh cs' hcs'

theorem lastHeaderCells_ne_nil (rows : List RawRow) (cs : List String)
    (h : lastHeaderCells rows = some cs) : cs ≠ [] :=
  foldl_headerScanStep_ne_nil rows none (by simp) cs h

theorem structure_table_entry_headers (entry : RawTableEntry) :
    (structure_table_entry entry).headers = lastHeaderCells entry.rows := by
  have h1 : (entry.rows.foldl tableStep ⟨none, [], [], []⟩).headers
      = lastHeaderCells entry.rows := by
    rw [foldl_tableStep_headers]
    rfl
  unfold structure_table_entry
  simp only [h1]
  cases h2 : lastHeaderCells entry.rows with
  | none => simp [optListTruthy, h2]
  | some cs =>
      have hne : cs ≠ [] := lastHeaderCells_ne_nil entry.rows cs h2
      simp [optListTruthy, h2, hne]

/-- C3: last header row wins, and header rows never become data.  A
header-flagged row with a non-empty cleaned cell list sets `headers`
to exactly that list (overwriting any earlier value); every
header-flagged row leaves `fields`, `records` and the residual rows
untouched; over a whole row sequence the headers end up as the last
header row's cells (falling back to the initial value when there is
none); and the output `headers` member of `structure_table_entry` is
exactly the last header row's cleaned cells. -/
theorem C3_last_header_row_wins :
    (∀ (s : TableState) (row : RawRow), row.header = true →
        cleanCells row.cells ≠ [] →
        tableStep s row = { s with headers := some (cleanCells row.cells) }) ∧
    (∀ (s : TableState) (row : RawRow), row.header = true →
        (tableStep s row).fields = s.fields ∧
        (tableStep s row).records = s.records ∧
        (tableStep s row).residual = s.residual) ∧
    (∀ (s : TableState) (rows : List RawRow),
        (rows.foldl tableStep s).headers
          = Option.or (lastHeaderCells rows) s.headers) ∧
    (∀ entry : RawTableEntry,
        (structure_table_entry entry).headers = lastHeaderCells entry.rows) := by
  refine ⟨tableStep_header, ?_, ?_, structure_table_entry_headers⟩
  · intro s row hh
    by_cases hc : cleanCells row.cells = []
    · rw [tableStep_skip s row hc]
      exact ⟨rfl, rfl, rfl⟩
    · rw [tableStep_header s row hh hc]
      exact ⟨rfl, rfl, rfl⟩
  · intro s rows
    rw [foldl_tableStep_headers, foldl_headerScanStep_or]
    rfl

/-- Witness for C3 at a concrete input: the header row `["A", "B"]`
replaces previously seen headers `["X"]` and leaves the data buckets
untouched; over the two header rows `H1 = ["X"]` then `H2 = ["A", "B"]`
the final headers are `H2`'s cells. -/
theorem C3_last_header_row_wins_witness :
    tableStep ⟨some ["X"], [], [], []⟩ ⟨["A", "B"], true⟩
      = ⟨some ["A", "B"], [], [], []⟩ ∧
    ([(⟨["X"], true⟩ : RawRow), ⟨["A", "B"], true⟩].foldl tableStep
        ⟨none, [], [], []⟩).headers
      = Option.or (lastHeaderCells [⟨["X"], true⟩, ⟨["A", "B"], true⟩]) none := by
  constructor
  · have h := C3_last_header_row_wins.1 ⟨some ["X"], [], [], []⟩
      ⟨["A", "B"], true⟩ rfl (by decide)
    rw [h]
    decide
  · exact C3_last_header_row_wins.2.2.1 ⟨none, [], [], []⟩
      [⟨["X"], true⟩, ⟨["A", "B"], true⟩]

/-! ## Trailing-colon stripping -/

theorem dropWhile_colon_eq_self (l : List Char)
    (h : ∀ c, l.head? = some c → c ≠ ':') :
    l.dropWhile (fun c => c = ':') = l := by
  cases l with
  | nil => rfl
  | cons c cs =>
      have hc : c ≠ ':' := h c rfl
      simp [List.dropWhile_cons, hc]

theorem rstripColons_of_no_trailing (s : String) (h : endsInColon s = false) :
    rstripColons s = s := by
  obtain ⟨l⟩ := s
  simp only [rstripColons]
  rw [dropWhile_colon_eq_self]
  · simp
  · intro c hc hcolon
    subst hcolon
    revert h hc
    simp only [endsInColon]
    cases hrev : l.reverse with
    | nil => simp [hrev]
    | cons c' rest =>
        intro h hc
        simp only [hrev, List.head?] at hc
        injection hc with hc
        subst hc
        simp at h

theorem rstripColons_push (s : String) (h : endsInColon s = false) :
    rstripColons (s.push ':') = s := by
  obtain ⟨l⟩ := s
  simp only [rstripColons, String.push]
  rw [List.reverse_append]
  simp only [List.reverse_cons, List.reverse_nil, List.nil_append,
    List.singleton_append, List.dropWhile_cons]
  simp only [decide_True, if_true]
  rw [dropWhile_colon_eq_self]
  · simp
  · intro c hc hcolon
    subst hcolon
    revert h hc
    simp only [endsInColon]
    cases hrev : l.reverse with
    | nil => simp [hrev]
    | cons c' rest =>
        intro h hc
        simp only [hrev, List.head?] at hc
        injection hc with hc
        subst hc
        simp at h

/-- C5: a non-header 2-cell row that does not match the current header
width goes to `fields`: the key is `cells[0]` with its trailing colons
stripped (`rstrip(":")`), the value is `cells[1]`, merged by the
duplicate-key rule.  In particular a first cell ending in a single
colon loses exactly that colon, and a first cell with no trailing colon
is kept unchanged. -/
theorem C5_two_cell_field_path :
    (∀ (s : TableState) (row : RawRow) (c₀ c₁ : String),
        row.header = false →
        rowIsRecord s.headers (cleanCells row.cells) = false →
        cleanCells row.cells = [c₀, c₁] →
        tableStep s row
          = { s with fields := mergeKV s.fields (rstripColons c₀) c₁ }) ∧
    (∀ s : String, endsInColon s = false → rstripColons (s.push ':') = s) ∧
    (∀ s : String, endsInColon s = false → rstripColons s = s) := by
  exact ⟨fun s row c₀ c₁ hh hr h2 => tableStep_field s row c₀ c₁ hh hr h2,
    rstripColons_push, rstripColons_of_no_trailing⟩

/-- Witness for C5 at a concrete input: with no headers, the 2-cell row
`["Key:", "Val"]` stores `fields["Key"] = "Val"`; stripping `"Key" ++ ":"`
gives back `"Key"`, and `"Key"` itself is unchanged. -/
theorem C5_two_cell_field_path_witness :
    tableStep ⟨none, [], [], []⟩ ⟨["Key:", "Val"], false⟩
      = ⟨none, [("Key", FieldVal.str "Val")], [], []⟩ ∧
    rstripColons (String.push "Key" ':') = "Key" ∧
    rstripColons "Key" = "Key" := by
  refine ⟨?_, ?_, ?_⟩
  · have h := C5_two_cell_field_path.1 ⟨none, [], [], []⟩
      ⟨["Key:", "Val"], false⟩ "Key:" "Val" rfl (by decide) (by decide)
    rw [h]
    decide
  · exact C5_two_cell_field_path.2.1 "Key" (by decide)
  · exact C5_two_cell_field_path.2.2 "Key" (by decide)

/-! ## Totality of the normalizer -/

theorem tableStepChecked_eq (s : TableState) (row : RawRow) :
    tableStepChecked s row = some (tableStep s row) := by
  by_cases hc : cleanCells row.cells = []
  · simp [tableStepChecked, tableStep, hc]
  · by_cases hh : row.header
    · simp [tableStepChecked, tableStep, hc, hh]
    · by_cases hr : rowIsRecord s.headers (cleanCells row.cells)
      · simp [tableStepChecked, tableStep, hc, hh, hr]
      · have hr' : rowIsRecord s.headers (cleanCells row.cells) = false := by
          simpa using hr
        rcases h2 : cleanCells row.cells with _ | ⟨c₀, _ | ⟨c₁, _ | ⟨c₂, cs⟩⟩⟩
        · exact absurd h2 hc
        · rw [h2] at hr'
          simp [tableStepChecked, tableStep, hc, hh, hr', h2]
        · rw [h2] at hr'
          simp [tableStepChecked, tableStep, hc, hh, hr', h2]
        · rw [h2] at hr'
          simp [tableStepChecked, tableStep, hc, hh, hr', h2]

theorem foldlM_tableStepChecked (rows : List RawRow) :
    ∀ s : TableState,
      rows.foldlM tableStepChecked s = some (rows.foldl tableStep s) := by
  induction rows with
  | nil => intro s; rfl
  | cons row rows ih =>
      intro s
      rw [List.foldlM_cons, tableStepChecked_eq]
      exact ih (tableStep s row)

/-- C6: the normalizer is total and never raises.  The variant of
`structure_table_entry` in which every operation the source could fail
on (the guarded `cells[0]` / `cells[1]` accesses) is made an explicit
fallible step always succeeds, and returns exactly the total
function's result, on every input entry — any rows, any widths, empty
rows and a missing or blank title included; being a pure function it
has no side effects. -/
theorem C6_normalizer_total :
    ∀ entry : RawTableEntry,
      structure_table_entry_checked entry = some (structure_table_entry entry) := by
  intro entry
  unfold structure_table_entry_checked structure_table_entry
  rw [foldlM_tableStepChecked]
  rfl

/-! ## Empty entries and the dropping of empty results -/

theorem foldl_tableStep_all_blank (rows : List RawRow) :
    ∀ s : TableState, (∀ r ∈ rows, cleanCells r.cells = []) →
      rows.foldl tableStep s = s := by
  induction rows with
  | nil => intro s _; rfl
  | cons row rows ih =>
      intro s h
      simp only [List.foldl_cons]
      rw [tableStep_skip s row (h row (List.mem_cons_self _ _))]
      exact ih s (fun r hr => h r (List.mem_cons_of_mem _ hr))

theorem normalize_table_entries_eq_filter (raw : List RawTableEntry) :
    normalize_table_entries raw
      = (raw.map structure_table_entry).filter (fun t => !t.isEmpty) := by
  have go : ∀ (l : List RawTableEntry) (acc : List NormalizedTable),
      l.foldl (fun acc e =>
          let structured := structure_table_entry e
          if structured.isEmpty then acc else acc ++ [structured]) acc
        = acc ++ (l.map structure_table_entry).filter (fun t => !t.isEmpty) := by
    intro l
    induction l with
    | nil => intro acc; simp
    | cons e l ih =>
        intro acc
        by_cases he : (structure_table_entry e).isEmpty
        · simp [he, ih]
        · simp [he, ih]
  rw [normalize_table_entries, go]
  simp

/-- C7: an entry whose rows all clean to nothing (no rows at all, or
only rows whose cells are empty or whitespace) normalizes to an object
holding only its non-blank title — an empty object when the title is
missing or blank; and `normalize_table_entries` maps
`structure_table_entry` over the entries in input order and keeps
exactly the non-empty results, in that order. -/
theorem C7_blank_entry_and_dropping :
    (∀ entry : RawTableEntry, (∀ r ∈ entry.rows, cleanCells r.cells = []) →
        structure_table_entry entry
          = { title := if strTrim (entry.title.getD "") = "" then none
                else some (strTrim (entry.title.getD "")),
              headers := none, fields := none, records := none, rows := none }) ∧
    (∀ raw : List RawTableEntry,
        normalize_table_entries raw
          = (raw.map structure_table_entry).filter (fun t => !t.isEmpty)) := by
  constructor
  · intro entry h
    unfold structure_table_entry
    rw [foldl_tableStep_all_blank entry.rows _ h]
    rfl
  · exact normalize_table_entries_eq_filter

/-- Witness for C7 at a concrete input: an entry titled `"Account"`
whose only row's cells are all blank normalizes to `{title: Account}`;
an untitled such entry normalizes to the empty object; and
`normalize_table_entries` drops the latter and keeps the former. -/
theorem C7_blank_entry_and_dropping_witness :
    structure_table_entry ⟨some "Account", [⟨["", "  "], false⟩]⟩
      = ⟨some "Account", none, none, none, none⟩ ∧
    structure_table_entry ⟨none, [⟨[""], true⟩]⟩ = ⟨none, none, none, none, none⟩ ∧
    normalize_table_entries
        [⟨some "Account", [⟨["", "  "], false⟩]⟩, ⟨none, [⟨[""], true⟩]⟩]
      = [⟨some "Account", none, none, none, none⟩] := by
  refine ⟨?_, ?_, ?_⟩
  · have h := C7_blank_entry_and_dropping.1
      ⟨some "Account", [⟨["", "  "], false⟩]⟩ (by decide)
    rw [h]
    decide
  · have h := C7_blank_entry_and_dropping.1 ⟨none, [⟨[""], true⟩]⟩ (by decide)
    rw [h]
    decide
  · have h := C7_blank_entry_and_dropping.2
      [⟨some "Account", [⟨["", "  "], false⟩]⟩, ⟨none, [⟨[""], true⟩]⟩]
    rw [h]
    decide

/-! ## Reachability of the fields path under a 2-wide header -/

theorem cells_len2_ne_nil {cells : List String} (h : cells.length = 2) :
    cells ≠ [] := by
  intro hnil
  subst hnil
  simp at h

theorem tableStep_record_of_width (s : TableState) (row : RawRow)
    (hs : List String) (hhead : s.headers = some hs) (hlen : hs.length = 2)
    (hh : row.header = false) (hc : (cleanCells row.cells).length = 2) :
    tableStep s row
      = { s with records := s.records ++ [dictOfPairs (hs.zip (cleanCells row.cells))] } := by
  have hr : rowIsRecord s.headers (cleanCells row.cells) = true := by
    rw [hhead]
    simp only [rowIsRecord, Bool.and_eq_true, decide_eq_true_eq]
    exact ⟨cells_len2_ne_nil hlen, by rw [hc, hlen]⟩
  rw [tableStep_record s row hh hr, hhead]
  simp

theorem foldl_tableStep_fields_stable (rows : List RawRow) :
    ∀ (s : TableState) (hs : List String), s.headers = some hs →
      hs.length = 2 → (∀ r ∈ rows, (cleanCells r.cells).length = 2) →
      (rows.foldl tableStep s).fields = s.fields := by
  induction rows with
  | nil => intro s hs _ _ _; rfl
  | cons row rows ih =>
      intro s hs hhead hlen hall
      have hrow : (cleanCells row.cells).length = 2 :=
        hall row (List.mem_cons_self _ _)
      have hrest : ∀ r ∈ rows, (cleanCells r.cells).length = 2 :=
        fun r hr => hall r (List.mem_cons_of_mem _ hr)
      simp only [List.foldl_cons]
      by_cases hh : row.header
      · rw [tableStep_header s row hh (cells_len2_ne_nil hrow)]
        exact ih { s with headers := some (cleanCells row.cells) }
          (cleanCells row.cells) rfl hrow hrest
      · have hh' : row.header = false := by simpa using hh
        rw [tableStep_record_of_width s row hs hhead hlen hh' hrow]
        exact ih { s with records := s.records
            ++ [dictOfPairs (hs.zip (cleanCells row.cells))] } hs hhead hlen hrest

/-- C10 (implicit): while the most recent header row has width 2, a
non-header 2-cell row is always consumed by the record path (never by
the key/value fields path); consequently an entry whose first row is a
2-cell header row and whose remaining rows all clean to exactly 2
cells produces no `fields` member at all. -/
theorem C10_two_wide_header_blocks_fields :
    (∀ (s : TableState) (row : RawRow) (hs : List String),
        s.headers = some hs → hs.length = 2 → row.header = false →
        (cleanCells row.cells).length = 2 →
        tableStep s row = { s with records := s.records
          ++ [dictOfPairs (hs.zip (cleanCells row.cells))] }) ∧
    (∀ (entry : RawTableEntry) (r₀ : RawRow) (rest : List RawRow),
        entry.rows = r₀ :: rest → r₀.header = true →
        (cleanCells r₀.cells).length = 2 →
        (∀ r ∈ rest, (cleanCells r.cells).length = 2) →
        (structure_table_entry entry).fields = none) := by
  constructor
  · exact fun s row hs hhead hlen hh hc =>
      tableStep_record_of_width s row hs hhead hlen hh hc
  · intro entry r₀ rest hrows hh hr₀ hrest
    unfold structure_table_entry
    rw [hrows]
    simp only [List.foldl_cons]
    rw [tableStep_header ⟨none, [], [], []⟩ r₀ hh (cells_len2_ne_nil hr₀)]
    rw [foldl_tableStep_fields_stable rest _ (cleanCells r₀.cells) rfl hr₀ hrest]
    rfl

/-- Witness for C10 at a concrete input: headers `["K", "V"]` as first
(header) row, then the 2-cell data rows `["a", "1"]` and `["b", "2"]`:
both become records and the result has no `fields` member. -/
theorem C10_two_wide_header_blocks_fields_witness :
    tableStep ⟨some ["K", "V"], [], [], []⟩ ⟨["a", "1"], false⟩
      = ⟨some ["K", "V"], [], [[("K", "a"), ("V", "1")]], []⟩ ∧
    (structure_table_entry
        ⟨none, [⟨["K", "V"], true⟩, ⟨["a", "1"], false⟩, ⟨["b", "2"], false⟩]⟩).fields
      = none := by
  constructor
  · have h := C10_two_wide_header_blocks_fields.1 ⟨some ["K", "V"], [], [], []⟩
      ⟨["a", "1"], false⟩ ["K", "V"] rfl rfl rfl (by decide)
    rw [h]
    decide
  · exact C10_two_wide_header_blocks_fields.2
      ⟨none, [⟨["K", "V"], true⟩, ⟨["a", "1"], false⟩, ⟨["b", "2"], false⟩]⟩
      ⟨["K", "V"], true⟩ [⟨["a", "1"], false⟩, ⟨["b", "2"], false⟩]
      rfl rfl (by decide) (by decide)

/-! ## LineSplitter classification -/

/-- C4: `splitLines` classifies each line by its first colon only: a
line whose first `:` is neither at index 0 nor the final character
becomes the pair (text before the first colon trimmed, text after it
trimmed — later colons belong to the value); every other line goes to
`rows`; every input line is kept, in order, in the audit copy `lines`;
and the spec's four-line example produces exactly
`keyValues = {A: [1, 2], B: 2:30}`, `rows = [no colon here]` and
`lines` equal to the input. -/
theorem C4_split_lines_first_colon :
    (∀ (line : String) (idx : Nat), firstColonIdx line = some idx →
        0 < idx → idx + 1 < strLen line →
        parseKVLine line
          = some (strTrim (strTake line idx), strTrim (strDrop line (idx + 1)))) ∧
    (∀ ls : List String, (splitLinesRaw ls).lines = ls) ∧
    (∀ ls : List String,
        (splitLinesRaw ls).rows = ls.filter (fun l => (parseKVLine l).isNone)) ∧
    (∀ ls : List String,
        (splitLinesRaw ls).keyValues = accumKV (ls.filterMap parseKVLine)) ∧
    (splitLinesRaw ["A: 1", "A: 2", "no colon here", "B:2:30"]
      = { keyValues := [("A", FieldVal.list ["1", "2"]),
            ("B", FieldVal.str "2:30")],
          rows := ["no colon here"],
          lines := ["A: 1", "A: 2", "no colon here", "B:2:30"] }) := by
  refine ⟨?_, ?_, ?_, splitLinesRaw_keyValues, by decide⟩
  · intro line idx hidx h0 h1
    simp [parseKVLine, hidx, h0, h1]
  · intro ls
    rfl
  · intro ls
    simp [splitLinesRaw, foldl_splitStep_snd]

/-- Witness for C4 at a concrete input: in `"B:2:30"` the first colon
is at index 1, so the key is `"B"` and the value `"2:30"` — the later
colon belongs to the value. -/
theorem C4_split_lines_first_colon_witness :
    parseKVLine "B:2:30"
      = some (strTrim (strTake "B:2:30" 1), strTrim (strDrop "B:2:30" 2)) ∧
    parseKVLine "B:2:30" = some ("B", "2:30") := by
  constructor
  · exact C4_split_lines_first_colon.1 "B:2:30" 1 (by decide) (by decide) (by decide)
  · decide

/-! ## Container assembly: heading-line dropping -/

theorem foldl_containerLineStep_raw (heading : Option String) (ls : List String) :
    ∀ acc : KVMap × List String,
      ((ls.map strTrim).filter (fun l => l ≠ "")).foldl
          (containerLineStep heading) acc
        = ls.foldl
            (fun acc l => if strTrim l = "" then acc
              else containerLineStep heading acc (strTrim l)) acc := by
  induction ls with
  | nil => intro acc; rfl
  | cons l ls ih =>
      intro acc
      simp only [List.map_cons, List.filter_cons, List.foldl_cons]
      by_cases hblank : strTrim l = ""
      · rw [if_neg (by simp [hblank]), if_pos hblank]
        exact ih acc
      · rw [if_pos (by simp [hblank]), if_neg hblank, List.foldl_cons]
        exact ih _

theorem foldl_rawStep_filter_heading (t : String) (ls : List String) :
    ∀ acc : KVMap × List String,
      ls.foldl
          (fun acc l => if strTrim l = "" then acc
            else containerLineStep (some t) acc (strTrim l)) acc
        = (ls.filter (fun l => strTrim l ≠ strTrim t)).foldl
            (fun acc l => if strTrim l = "" then acc
              else containerLineStep (some t) acc (strTrim l)) acc := by
  induction ls with
  | nil => intro acc; rfl
  | cons l ls ih =>
      intro acc
      have hstep : ∀ acc₀ : KVMap × List String, strTrim l = strTrim t →
          (if strTrim l = "" then acc₀
            else containerLineStep (some t) acc₀ (strTrim l)) = acc₀ := by
        intro acc₀ hteq
        by_cases hblank : strTrim l = ""
        · simp [hblank]
        · simp [hblank, containerLineStep, headingMatches, hteq]
      simp only [List.foldl_cons, List.filter_cons]
      by_cases hteq : strTrim l = strTrim t
      · rw [hstep acc hteq,
          if_neg (show ¬(decide (strTrim l ≠ strTrim t) = true) by simp [hteq])]
        exact ih acc
      · rw [if_pos (show decide (strTrim l ≠ strTrim t) = true by simp [hteq]),
          List.foldl_cons]
        exact ih _

theorem foldl_containerLineStep_filter_heading (t : String) (ls : List String)
    (acc : KVMap × List String) :
    ((ls.map strTrim).filter (fun l => l ≠ "")).foldl
        (containerLineStep (some t)) acc
      = (((ls.filter (fun l => strTrim l ≠ strTrim t)).map strTrim).filter
          (fun l => l ≠ "")).foldl (containerLineStep (some t)) acc := by
  rw [foldl_containerLineStep_raw, foldl_containerLineStep_raw,
    foldl_rawStep_filter_heading]

theorem foldl_containerLineStep_no_heading_mem (t : String) (ms : List String) :
    ∀ acc : KVMap × List String, strTrim t ∉ acc.2 →
      strTrim t ∉ (ms.foldl (containerLineStep (some t)) acc).2 := by
  induction ms with
  | nil => intro acc h; exact h
  | cons line ms ih =>
      intro acc h
      simp only [List.foldl_cons]
      refine ih (containerLineStep (some t) acc line) ?_
      by_cases hm : headingMatches (some t) line
      · simp [containerLineStep, hm, h]
      · have hne : line ≠ strTrim t := by
          simpa [headingMatches] using hm
        cases hp : parseKVLine line with
        | some p => simp [containerLineStep, hm, hp, h]
        | none =>
            simp only [containerLineStep, hm, hp, Bool.false_eq_true, if_false]
            simp only [List.mem_append, List.mem_singleton]
            rintro (hmem | hmem)
            · exact h hmem
            · exact hne hmem.symm

/-- C8: every body line equal to the heading text is dropped before
classification — assembling a container is unchanged by deleting from
the input every line whose trimmed form equals the trimmed heading, a
heading-equal line never reaches the output `lines`, and on the spec's
example (heading `"Jurisdiction X"`, a body line equal to it, and a
key/value line) the heading line shows up in neither `fields` nor
`lines` while the other line classifies normally. -/
theorem C8_heading_line_dropped :
    (∀ (t : String) (rawLines : List String) (rawTables : List RawTable),
        assemble_container (some t) rawLines rawTables
          = assemble_container (some t)
              (rawLines.filter (fun l => strTrim l ≠ strTrim t)) rawTables) ∧
    (∀ (t : String) (rawLines : List String) (rawTables : List RawTable)
        (out : List String),
        (assemble_container (some t) rawLines rawTables).lines = some out →
        strTrim t ∉ out) ∧
    (assemble_container (some "Jurisdiction X")
        ["Jurisdiction X", "Tax Rate: 2.5"] []
      = { label := some "Jurisdiction X",
          fields := some [("Tax Rate", FieldVal.str "2.5")],
          lines := none, tables := none }) := by
  refine ⟨?_, ?_, by decide⟩
  · intro t rawLines rawTables
    unfold assemble_container assembleContainerLines
    rw [foldl_containerLineStep_filter_heading]
  · intro t rawLines rawTables out hout
    have hout' : (if (assembleContainerLines (some t) rawLines).2 = [] then none
          else some ((assembleContainerLines (some t) rawLines).2)) = some out :=
      hout
    by_cases hnil : (assembleContainerLines (some t) rawLines).2 = []
    · rw [if_pos hnil] at hout'
      exact absurd hout' (by simp)
    · rw [if_neg hnil] at hout'
      have hmem : strTrim t ∉ (assembleContainerLines (some t) rawLines).2 := by
        unfold assembleContainerLines
        exact foldl_containerLineStep_no_heading_mem t _ ([], []) (by simp)
      rw [← Option.some.inj hout']
      exact hmem

/-- Witness for C8 at a concrete input: with heading `"H"` and body
lines `["H", "x"]`, the output `lines` are `["x"]` and the heading text
is not among them. -/
theorem C8_heading_line_dropped_witness :
    strTrim "H" ∉ ["x"] := by
  exact C8_heading_line_dropped.2.1 "H" ["H", "x"] [] ["x"] (by decide)

/-! ## Container assembly: table row filtering -/

theorem filter_map_rows_eq (rows : List (List String)) :
    (rows.map (fun r => (r.map strTrim).filter (fun c => c ≠ ""))).filter
        (fun r => r ≠ [])
      = (rows.filter (fun r => r.any (fun c => strTrim c ≠ ""))).map
          (fun r => (r.map strTrim).filter (fun c => c ≠ "")) := by
  induction rows with
  | nil => rfl
  | cons r rows ih =>
      simp only [List.map_cons, List.filter_cons]
      by_cases h : ∃ c ∈ r, strTrim c ≠ ""
      · obtain ⟨c, hc, hne⟩ := h
        have h1 : (r.map strTrim).filter (fun c => c ≠ "") ≠ [] := by
          intro hnil
          rw [List.filter_eq_nil_iff] at hnil
          exact (hnil (strTrim c) (List.mem_map_of_mem strTrim hc))
            (by simpa using hne)
        have h2 : r.any (fun c => strTrim c ≠ "") = true := by
          rw [List.any_eq_true]
          exact ⟨c, hc, by simpa using hne⟩
        rw [if_pos (by simpa using h1), if_pos h2, List.map_cons, ih]
      · push_neg at h
        have h1 : (r.map strTrim).filter (fun c => c ≠ "") = [] := by
          rw [List.filter_eq_nil_iff]
          intro x hx
          obtain ⟨c, hc, rfl⟩ := List.mem_map.mp hx
          simp [h c hc]
        have h2 : r.any (fun c => strTrim c ≠ "") = false := by
          rw [List.any_eq_false]
          intro c hc
          simp [h c hc]
        rw [if_neg (by simpa using h), if_neg (by simpa [h2] using h), ih]

theorem cleanTable_rows_eq (t : RawTable) :
    (cleanTable t).rows
      = (t.rows.filter (fun r => r.any (fun c => strTrim c ≠ ""))).map
          (fun r => (r.map strTrim).filter (fun c => c ≠ "")) :=
  filter_map_rows_eq t.rows

/-- C9: per raw table, exactly the rows containing at least one
non-blank cell survive (with their blank cells removed, in original
order); the `tables` member holds, in input order, exactly the tables
with at least one surviving row, and is omitted when none survives; a
table survives iff not all of its cells are blank. -/
theorem C9_tables_keep_nonblank_rows :
    (∀ (heading : Option String) (rawLines : List String)
        (rawTables : List RawTable),
        (assemble_container heading rawLines rawTables).tables
          = (if (rawTables.map cleanTable).filter (fun t => t.rows ≠ []) = []
             then none
             else some ((rawTables.map cleanTable).filter
                (fun t => t.rows ≠ [])))) ∧
    (∀ t : RawTable, (cleanTable t).rows
        = (t.rows.filter (fun r => r.any (fun c => strTrim c ≠ ""))).map
            (fun r => (r.map strTrim).filter (fun c => c ≠ ""))) ∧
    (∀ t : RawTable,
        ((cleanTable t).rows = [] ↔ ∀ r ∈ t.rows, ∀ c ∈ r, strTrim c = "")) := by
  refine ⟨fun heading rawLines rawTables => rfl, cleanTable_rows_eq, ?_⟩
  intro t
  rw [cleanTable_rows_eq]
  rw [List.map_eq_nil_iff, List.filter_eq_nil_iff]
  constructor
  · intro h r hr c hc
    by_contra hne
    have := h r hr
    rw [List.any_eq_true] at this
    exact this ⟨c, hc, by simpa using hne⟩
  · intro h r hr hany
    rw [List.any_eq_true] at hany
    obtain ⟨c, hc, hne⟩ := hany
    exact (by simpa using hne : strTrim c ≠ "") (h r hr c hc)

/-- Witness for C9 at a concrete input: of the three raw rows
`[["", " "], ["a", ""], []]` only `["a", ""]` has a non-blank cell, so
it alone survives (as `["a"]`), and the all-blank table is dropped when
assembling. -/
theorem C9_tables_keep_nonblank_rows_witness :
    (cleanTable ⟨["h"], [["", " "], ["a", ""], []]⟩).rows = [["a"]] ∧
    (assemble_container none [] [⟨["h"], [["", " "]]⟩]).tables = none := by
  constructor
  · have h := C9_tables_keep_nonblank_rows.2.1 ⟨["h"], [["", " "], ["a", ""], []]⟩
    rw [h]
    decide
  · have h := C9_tables_keep_nonblank_rows.1 none [] [⟨["h"], [["", " "]]⟩]
    rw [h]
    decide

end HarrisScrape
